import Mathlib

/-!
Verification development for the weather-app city-name resolution pipeline.

Shallow embedding of:
* `src/lib/arabicNormalize.ts` — `normalizeArabic`, `normalizeCityName`
* `src/unnamed/part_004` (app/api/weather/route.ts) — `isAmmanCity`,
  `filterGeocodingResults`, `geocodeCity`, and the city branch of `GET`
* `src/unnamed/part_005` (app/page.tsx) — the query plan of `geocodeCityName`

JS strings are modelled as `List Char` (all characters involved are in the
Basic Multilingual Plane, so UTF-16 code units coincide with code points).
-/

namespace WApp

/-! ### Definitions: shallow embedding of the source -/

/-- The character set matched by JavaScript's `\s` regex class and removed by
`String.prototype.trim`: ASCII whitespace, NBSP, Ogham space mark, the
`U+2000`–`U+200A` range, line/paragraph separators, narrow NBSP, medium
mathematical space, ideographic space and BOM. -/
def wsList : List Char :=
  [' ', '\t', '\n', '\r', '\u000B', '\u000C', ' ', ' ',
   ' ', ' ', ' ', ' ', ' ', ' ', ' ',
   ' ', ' ', ' ', ' ', ' ', ' ', ' ',
   ' ', '　', '﻿']

/-- JS whitespace test (`\s` / `trim`). -/
def wsChar (c : Char) : Bool := wsList.contains c

/-- The regex `/[؀-ۿ]/` used by both source files to detect Arabic. -/
def isArabicChar (c : Char) : Bool := decide (0x600 ≤ c.toNat ∧ c.toNat ≤ 0x6FF)

/-- The diacritic class `/[ً-ٰٟ]/` of `removeDiacritics`. -/
def isDiacritic (c : Char) : Bool :=
  decide ((0x64B ≤ c.toNat ∧ c.toNat ≤ 0x65F) ∨ c.toNat = 0x670)

/-- Model of `String.prototype.toLowerCase` on the character range the code
compares against (all fixed rule-table strings are ASCII or Arabic; Arabic has
no case, so only ASCII `A`–`Z` is mapped). -/
def lowerChar : Char → Char
  | 'A' => 'a'
  | 'B' => 'b'
  | 'C' => 'c'
  | 'D' => 'd'
  | 'E' => 'e'
  | 'F' => 'f'
  | 'G' => 'g'
  | 'H' => 'h'
  | 'I' => 'i'
  | 'J' => 'j'
  | 'K' => 'k'
  | 'L' => 'l'
  | 'M' => 'm'
  | 'N' => 'n'
  | 'O' => 'o'
  | 'P' => 'p'
  | 'Q' => 'q'
  | 'R' => 'r'
  | 'S' => 's'
  | 'T' => 't'
  | 'U' => 'u'
  | 'V' => 'v'
  | 'W' => 'w'
  | 'X' => 'x'
  | 'Y' => 'y'
  | 'Z' => 'z'
  | c => c

/-- `.replace(/ى/g, 'ي')` — alif maksura to ya. -/
def rAlifMaksura (c : Char) : Char := if c = 'ى' then 'ي' else c

/-- `.replace(/ة/g, 'ه')` — ta marbuta to ha. -/
def rTaMarbuta (c : Char) : Char := if c = 'ة' then 'ه' else c

/-- `.replace(/إ/g, 'ا')` — alif with hamza below to alif. -/
def rHamzaBelow (c : Char) : Char := if c = 'إ' then 'ا' else c

/-- `.replace(/أ/g, 'ا')` — alif with hamza above to alif. -/
def rHamzaAbove (c : Char) : Char := if c = 'أ' then 'ا' else c

/-- `.replace(/آ/g, 'ا')` — alif maddah to alif. -/
def rMaddah (c : Char) : Char := if c = 'آ' then 'ا' else c

/-- `.replace(/ؤ/g, 'و')` — waw with hamza to waw. -/
def rWawHamza (c : Char) : Char := if c = 'ؤ' then 'و' else c

/-- `.replace(/ئ/g, 'ي')` — ya with hamza to ya. -/
def rYaHamza (c : Char) : Char := if c = 'ئ' then 'ي' else c

/-- The seven letter replacements as one character-level table (no replacement
target is a later replacement source, so the sequential passes agree with this
simultaneous form; `mapLetter_eq_passes` proves it). -/
def mapLetter (c : Char) : Char :=
  if c = 'ى' then 'ي'
  else if c = 'ة' then 'ه'
  else if c = 'إ' then 'ا'
  else if c = 'أ' then 'ا'
  else if c = 'آ' then 'ا'
  else if c = 'ؤ' then 'و'
  else if c = 'ئ' then 'ي'
  else c

/-- `normalizeArabicLetters`: the seven sequential global `.replace` passes of
the source, each a character-for-character substitution over the string. -/
def normalizeArabicLetters (l : List Char) : List Char :=
  ((((((l.map rAlifMaksura).map rTaMarbuta).map rHamzaBelow).map
      rHamzaAbove).map rMaddah).map rWawHamza).map rYaHamza

/-- `removeDiacritics`: `text.replace(/[ً-ٰٟ]/g, '')`. -/
def removeDiacritics (l : List Char) : List Char := l.filter (fun c => !isDiacritic c)

/-- `.replace(/\s+/g, ' ')`: every maximal run of whitespace becomes one
single space. -/
def collapseWS : List Char → List Char
  | [] => []
  | [c] => if wsChar c then [' '] else [c]
  | a :: b :: rest =>
    if wsChar a && wsChar b then collapseWS (b :: rest)
    else (if wsChar a then ' ' else a) :: collapseWS (b :: rest)

/-- `String.prototype.trim`: drop JS whitespace from both ends. -/
def trimStr (l : List Char) : List Char :=
  ((l.dropWhile wsChar).reverse.dropWhile wsChar).reverse

/-- `normalizeArabic` from `src/lib/arabicNormalize.ts`, on an actual string
argument (the non-string guard is handled in `normalizeArabicJS`). The empty
string is falsy in JS, so `!text` returns it unchanged. -/
def normalizeArabicStr (s : List Char) : List Char :=
  if s = [] then s
  else if s.any isArabicChar then
    collapseWS (normalizeArabicLetters (removeDiacritics (trimStr s)))
  else collapseWS (trimStr s)

/-- `normalizeCityName` from `src/lib/arabicNormalize.ts`, on an actual string
argument: normalize Arabic, lower-case only when the normalized text contains
no Arabic character, trim. -/
def normalizeCityNameStr (s : List Char) : List Char :=
  if s = [] then []
  else
    let n := normalizeArabicStr s
    let n2 := if n.any isArabicChar then n else n.map lowerChar
    trimStr n2

/-- A JavaScript value as it may reach the normalizers: a string or one of the
non-string shapes the `typeof` guards reject. -/
inductive JSVal where
  | str (s : List Char)
  | nullV
  | undef
  | num (n : Int)
  | boolV (b : Bool)
deriving DecidableEq

/-- `true` exactly on string values (`typeof city === 'string'`). -/
def JSVal.isString : JSVal → Bool
  | .str _ => true
  | _ => false

/-- `normalizeCityName` including its guard
`if (!city || typeof city !== 'string') return ''`. -/
def normalizeCityNameJS : JSVal → List Char
  | .str s => normalizeCityNameStr s
  | _ => []

/-- `normalizeArabic` including its guard, which returns the *input itself*
(not a string default) for non-string values. -/
def normalizeArabicJS : JSVal → JSVal
  | .str s => .str (normalizeArabicStr s)
  | v => v

/-- `String.prototype.includes`: `needle` occurs contiguously in `hay`. -/
def containsSub (needle hay : List Char) : Bool :=
  hay.tails.any (fun t => needle.isPrefixOf t)

/-- One record returned by the geocoding service. Coordinates are opaque
payload (never computed with), carried as `Int`. `admin1`/`admin2` of the
part_004 interface are never read by the filtering logic and are omitted. -/
structure GeoResult where
  name : List Char
  country : List Char
  country_code : Option (List Char) := none
  latitude : Int := 0
  longitude : Int := 0
  population : Option Nat := none
  feature_code : Option (List Char) := none
deriving DecidableEq, Repr

/-- `'ar'` language hint. -/
def langAr : List Char := "ar".toList

/-- `'en'` language hint. -/
def langEn : List Char := "en".toList

/-- `'PPLC'` national-capital feature code. -/
def pplc : List Char := "PPLC".toList

/-- `'PPLA'` admin-capital feature code. -/
def ppla : List Char := "PPLA".toList

/-- `'سلطنة عمان'` (U+0633 U+0644 U+0637 U+0646 U+0629 U+0020 U+0639 U+0645
U+0627 U+0646). -/
def sultanateAr : List Char := "سلطنة عمان".toList

/-- `'عُمان'` — Oman with damma (U+0639 U+064F U+0645 U+0627 U+0646). -/
def omanArDiacritic : List Char := "عُمان".toList

/-- `'عمان'` (U+0639 U+0645 U+0627 U+0646) — Amman without diacritics. -/
def ammanAr : List Char := "عمان".toList

/-- `'amman'`. -/
def ammanLatin : List Char := "amman".toList

/-- `'oman'`. -/
def omanLatin : List Char := "oman".toList

/-- `'sultanate of oman'`. -/
def sultanateLatin : List Char := "sultanate of oman".toList

/-- The `omanCountryPatterns` table of `isAmmanCity`. -/
def omanPatterns : List (List Char) :=
  [sultanateAr, sultanateLatin, "sultanate oman".toList,
   "country oman".toList, omanArDiacritic]

/-- The `ammanVariants` table of `isAmmanCity` (`ammān` has U+0101, `ammãn`
has U+00E3). -/
def ammanVariants : List (List Char) :=
  [ammanAr, ammanLatin, "ammān".toList, "ammãn".toList]

/-- `'jordan'`. -/
def jordanEn : List Char := "jordan".toList

/-- `'الأردن'` (U+0627 U+0644 U+0623 U+0631 U+062F U+0646). -/
def jordanAr : List Char := "الأردن".toList

/-- `'jo'`. -/
def codeJo : List Char := "jo".toList

/-- `'jor'`. -/
def codeJor : List Char := "jor".toList

/-- `isAmmanCity`: is the input the Amman city (as opposed to Oman country)?
`normalized = normalizeCityName(input).toLowerCase().trim()`; return `false`
on any Oman country pattern, else `true` on any Amman variant (exact match,
or containment without the `oman` / `عُمان` tokens). -/
def isAmmanCity (input : List Char) : Bool :=
  let normalized := trimStr ((normalizeCityNameStr input).map lowerChar)
  if omanPatterns.any (fun p => containsSub (p.map lowerChar) normalized) then false
  else ammanVariants.any (fun v =>
    let vl := v.map lowerChar
    (normalized == vl) ||
      (containsSub vl normalized && !containsSub omanLatin normalized &&
        !containsSub omanArDiacritic normalized))

/-- The `isJordan` test of the guarded branch: country name (lower-cased)
equals `jordan` or `الأردن`, or country code (lower-cased, `''` when absent)
equals `jo` or `jor`. -/
def isJordanR (r : GeoResult) : Bool :=
  let resultCountry := r.country.map lowerChar
  let resultCountryCode := (r.country_code.getD []).map lowerChar
  (resultCountry == jordanEn) || (resultCountry == jordanAr) ||
    (resultCountryCode == codeJo) || (resultCountryCode == codeJor)

/-- The `nameMatchesAmman` test: lower-cased name contains `amman`, equals or
contains `عمان`, or the feature code is `PPLC`. -/
def nameMatchesAmman (r : GeoResult) : Bool :=
  let resultName := r.name.map lowerChar
  containsSub ammanLatin resultName || (resultName == ammanAr) ||
    containsSub ammanAr resultName || (r.feature_code == some pplc)

/-- `isCapital`: feature code `PPLC` or `PPLA`. -/
def isCapitalR (r : GeoResult) : Bool :=
  (r.feature_code == some pplc) || (r.feature_code == some ppla)

/-- `result.population && result.population > n` (absent and `0` populations
are falsy). -/
def hasPopOver (r : GeoResult) (n : Nat) : Bool :=
  match r.population with
  | some p => decide (p > n)
  | none => false

/-- The guarded-branch loop over the batch: skip non-Jordan records; accept
the first Jordan record whose name matches Amman (or is `PPLC`) and that is a
capital or has population above 100 000 / above 50 000. -/
def ammanScan : List GeoResult → Option GeoResult
  | [] => none
  | r :: rest =>
    if !isJordanR r then ammanScan rest
    else if nameMatchesAmman r &&
        (isCapitalR r || hasPopOver r 100000 || hasPopOver r 50000) then some r
    else ammanScan rest

/-- `population || 0`. -/
def popD (r : GeoResult) : Nat := r.population.getD 0

/-- The ordering induced by the general-rule comparator
`(a, b) => PPLC-first, then popB - popA`: `geoLE a b` holds when the
comparator returns a value `≤ 0`, i.e. when a stable sort may keep `a` before
`b`. -/
def geoLE (a b : GeoResult) : Bool :=
  if a.feature_code == some pplc && !(b.feature_code == some pplc) then true
  else if b.feature_code == some pplc && !(a.feature_code == some pplc) then false
  else popD b ≤ popD a

/-- `geoLE` as a decidable relation for `List.insertionSort`. -/
def geoLEP (a b : GeoResult) : Prop := geoLE a b = true

instance : DecidableRel geoLEP := fun a b => by unfold geoLEP; infer_instance

/-- `[...results].sort(comparator)`: JS `Array.prototype.sort` with a
consistent comparator is specified as a stable sort by that comparator;
`List.insertionSort` over `geoLEP` is such a stable sort (it inserts each
element before the later-listed elements it ties with). -/
def jsSorted (results : List GeoResult) : List GeoResult :=
  List.insertionSort geoLEP results

/-- The non-guarded branch: sort by the comparator, take the head, accept it
only if it is a capital or has population above 10 000. -/
def generalBest (results : List GeoResult) : Option GeoResult :=
  match jsSorted results with
  | [] => none
  | best :: _ => if isCapitalR best || hasPopOver best 10000 then some best else none

/-- `filterGeocodingResults` of part_004 (part_005 contains the same logic):
empty (or absent) batches give `null`; the Amman guard scans for a verified
Jordan record; otherwise the general capital/population ranking applies. -/
def filterGeocodingResults (results : List GeoResult) (cityName : List Char) :
    Option GeoResult :=
  if results = [] then none
  else if isAmmanCity cityName then ammanScan results
  else generalBest results

/-- `trimmedCity.split(/[،,]/)[0]`: the segment before the first ASCII or
Arabic comma. -/
def beforeComma (l : List Char) : List Char :=
  l.takeWhile (fun c => !(c = ',' || c = '،'))

/-- `searchCity`: `cityOnly || trimmedCity` where
`cityOnly = trimmedCity.split(/[،,]/)[0].trim()`. -/
def searchCityOf (city : List Char) : List Char :=
  let trimmedCity := trimStr city
  let cityOnly := trimStr (beforeComma trimmedCity)
  if cityOnly = [] then trimmedCity else cityOnly

/-- The filler words of strategy 5’s regexes `^(في|من|إلى|على)\s+` and
`\s+(في|من|إلى|على)$`. -/
def fillerWords : List (List Char) := ["في".toList, "من".toList, "إلى".toList, "على".toList]

/-- Is the head of the list a JS whitespace character? (`\s+` needs at least
one.) -/
def wsHeadB : List Char → Bool
  | [] => false
  | c :: _ => wsChar c

/-- `.replace(/^(في|من|إلى|على)\s+/g, '')`: with the `^` anchor the global
replace fires at most once, removing the leading filler word and the greedy
whitespace run after it. -/
def stripFillerStart (s : List Char) : List Char :=
  match fillerWords.find? (fun w => w.isPrefixOf s && wsHeadB (s.drop w.length)) with
  | some w => (s.drop w.length).dropWhile wsChar
  | none => s

/-- `.replace(/\s+(في|من|إلى|على)$/g, '')`: at most one removal of the
trailing filler word and the maximal whitespace run before it (the leftmost
match start extends `\s+` over the whole run). -/
def stripFillerEnd (s : List Char) : List Char :=
  let r := s.reverse
  match fillerWords.find? (fun w => w.reverse.isPrefixOf r && wsHeadB (r.drop w.length)) with
  | some w => (((r.drop w.length).dropWhile wsChar).reverse)
  | none => s

/-- `cleanedArabic` of strategy 5. -/
def cleanedArabicOf (searchCity : List Char) : List Char :=
  trimStr (stripFillerEnd (stripFillerStart searchCity))

/-- One planned lookup: the query string, the `language` parameter, and the
`cityName` argument later passed to `filterGeocodingResults` for that
strategy (strategy 1 passes the full `trimmedCity`, all others pass
`searchCity`). -/
structure Strat where
  query : List Char
  lang : List Char
  filterArg : List Char
deriving DecidableEq, Repr

/-- The ordered strategy ladder of `geocodeCity`, read off its sequential
`if`-chain: the five Arabic strategies (with the guards
`normalizedInput !== searchCity && normalizedInput !== searchCity.toLowerCase()`
for strategies 2/4 and `cleanedArabic && cleanedArabic !== searchCity` for
strategy 5) or the two non-Arabic strategies. Empty for blank input. -/
def geocodeCityStrats (city : List Char) : List Strat :=
  let trimmedCity := trimStr city
  if trimmedCity = [] then []
  else
    let searchCity := searchCityOf city
    let hasArabic := searchCity.any isArabicChar
    let normalizedInput := normalizeCityNameStr searchCity
    if hasArabic then
      [⟨searchCity, langAr, trimmedCity⟩] ++
      (if normalizedInput ≠ searchCity ∧ normalizedInput ≠ searchCity.map lowerChar
        then [⟨normalizedInput, langAr, searchCity⟩] else []) ++
      [⟨searchCity, langEn, searchCity⟩] ++
      (if normalizedInput ≠ searchCity ∧ normalizedInput ≠ searchCity.map lowerChar
        then [⟨normalizedInput, langEn, searchCity⟩] else []) ++
      (let cleanedArabic := cleanedArabicOf searchCity
       if cleanedArabic ≠ [] ∧ cleanedArabic ≠ searchCity
        then [⟨cleanedArabic, langAr, searchCity⟩, ⟨cleanedArabic, langEn, searchCity⟩]
        else [])
    else
      [⟨searchCity, langEn, searchCity⟩] ++
      (if normalizedInput ≠ searchCity ∧ normalizedInput ≠ searchCity.map lowerChar
        then [⟨normalizedInput, langEn, searchCity⟩] else [])

/-- The planned `(queryString, languageHint)` sequence of `geocodeCity`. -/
def geocodeCityPlan (city : List Char) : List (List Char × List Char) :=
  (geocodeCityStrats city).map (fun st => (st.query, st.lang))

/-- A stub of `geocodeCityWithFallback`: for a query string and language it
returns the candidate batch, or `none` for a failed / empty / malformed
response. -/
def Oracle := List Char → List Char → Option (List GeoResult)

/-- Run the strategy ladder: call the oracle for each strategy in order,
filter any non-empty batch, stop at the first accepted record. Also log every
`(queryString, language)` lookup issued. -/
def runStrats (oracle : Oracle) : List Strat → Option GeoResult × List (List Char × List Char)
  | [] => (none, [])
  | st :: rest =>
    let step :=
      match oracle st.query st.lang with
      | some batch => if batch ≠ [] then filterGeocodingResults batch st.filterArg else none
      | none => none
    match step with
    | some r => (some r, [(st.query, st.lang)])
    | none =>
      let next := runStrats oracle rest
      (next.1, (st.query, st.lang) :: next.2)

/-- `geocodeCity`: trim-guard, then the strategy ladder. Returns the accepted
record (if any) and the log of geocode calls issued. -/
def geocodeCityRun (oracle : Oracle) (city : List Char) :
    Option GeoResult × List (List Char × List Char) :=
  runStrats oracle (geocodeCityStrats city)

/-- Outcome of the city branch of the route handler `GET`. -/
inductive CityOutcome where
  | inputError
  | notFound
  | resolved (r : GeoResult)
deriving DecidableEq

/-- The city branch of `GET` (part_004): blank input is rejected up front
(`if (!city.trim().length)` → 400) before any lookup; otherwise `geocodeCity`
runs and `null` becomes the 404 "City not found" outcome. -/
def routeCityOutcome (oracle : Oracle) (city : List Char) :
    CityOutcome × List (List Char × List Char) :=
  if trimStr city = [] then (.inputError, [])
  else
    match geocodeCityRun oracle city with
    | (some r, log) => (.resolved r, log)
    | (none, log) => (.notFound, log)

/-- The planned `(query, language)` sequence of `geocodeCityName` in
part_005: `languages = hasArabic ? ['ar', 'en'] : ['en']`, and per language
`queries = language === 'ar' && normalized !== searchQuery ?
[searchQuery, normalized] : [normalized !== searchQuery ? normalized :
searchQuery, searchQuery]`. -/
def geocodeCityNamePlan (cityInput : List Char) : List (List Char × List Char) :=
  if cityInput = [] ∨ trimStr cityInput = [] then []
  else
    let searchQuery := searchCityOf cityInput
    let normalized := normalizeCityNameStr searchQuery
    let hasArabic := searchQuery.any isArabicChar
    let queriesFor := fun (language : List Char) =>
      if language = langAr ∧ normalized ≠ searchQuery then [searchQuery, normalized]
      else [if normalized ≠ searchQuery then normalized else searchQuery, searchQuery]
    let planFor := fun (language : List Char) =>
      (queriesFor language).map (fun q => (q, language))
    if hasArabic then planFor langAr ++ planFor langEn else planFor langEn

/-- The true-country match of the guarded-rule scenario: Amman, Jordan,
capital-level feature code, population 1 200 000. -/
def jordanAmman : GeoResult :=
  { name := "Amman".toList, country := "Jordan".toList,
    country_code := some ("JO".toList), latitude := 31, longitude := 35,
    population := some 1200000, feature_code := some pplc }

/-- A same-named match in another country. -/
def otherAmman : GeoResult :=
  { name := "Amman".toList, country := "United States".toList,
    country_code := some ("US".toList), latitude := 41, longitude := -74,
    population := some 5000 }

/-- A Jordanian record tagged `PPLC` whose name matches no Amman variant. -/
def zarqaCapital : GeoResult :=
  { name := "Zarqa".toList, country := "Jordan".toList,
    country_code := some ("JO".toList), population := some 635000,
    feature_code := some pplc }

/-- An admin-capital (`PPLA`) record with population 1 000. -/
def pplaSmall : GeoResult :=
  { name := "Smallcap".toList, country := "x".toList,
    population := some 1000, feature_code := some ppla }

/-- An ordinary record with population 2 000 000. -/
def bigTown : GeoResult :=
  { name := "Bigtown".toList, country := "y".toList,
    population := some 2000000 }

/-- Population-5 000 record, no feature code. -/
def town5k : GeoResult :=
  { name := "t5".toList, country := "c5".toList, population := some 5000 }

/-- Population-80 000 record, no feature code. -/
def town80k : GeoResult :=
  { name := "t80".toList, country := "c80".toList, population := some 80000 }

/-- Population-2 000 000 record, no feature code. -/
def town2m : GeoResult :=
  { name := "t2m".toList, country := "c2m".toList, population := some 2000000 }

/-- Population-3 000 record, no feature code. -/
def town3k : GeoResult :=
  { name := "t3k".toList, country := "c3k".toList, population := some 3000 }

/-- A Tokyo record for orchestrator witnesses. -/
def tokyoRec : GeoResult :=
  { name := "Tokyo".toList, country := "Japan".toList,
    population := some 37000000, feature_code := some pplc }

/-- The raw input `"tokyo"`. -/
def tokyoQuery : List Char := "tokyo".toList

/-- The raw input `"Tokyo"`. -/
def tokyoMixed : List Char := "Tokyo".toList

/-- The raw input `"paris"` (a non-guarded input). -/
def parisQuery : List Char := "paris".toList

/-- Whitespace-only raw input. -/
def blankInput : List Char := "   ".toList

/-- `['A', U+064B]`: a Latin capital followed by an Arabic diacritic. -/
def latinWithDiacritic : List Char := ['A', 'ً']

/-- Mixed-script input: a Latin capital followed by Arabic letters. -/
def mixedScript : List Char := "Aعمان".toList

/-- A constant oracle that always answers with the single Tokyo record. -/
def constTokyoOracle : Oracle := fun _ _ => some [tokyoRec]

/-- The seven letter-replacement sources. -/
def srcTable : List Char := ['ى', 'ة', 'إ', 'أ', 'آ', 'ؤ', 'ئ']

/-- The letter-replacement targets. -/
def tgtTable : List Char := ['ي', 'ه', 'ا', 'و']

/-- ASCII capitals. -/
def upperTable : List Char := "ABCDEFGHIJKLMNOPQRSTUVWXYZ".toList

/-- Modelled from the claim’s words (for comparison with the code): the
claim’s sort puts *capital-status* first, "administrative/national capital
ranking above all else", i.e. `PPLC` or `PPLA` both rank above non-capitals,
then descending population. -/
def specLE (a b : GeoResult) : Bool :=
  if isCapitalR a && !isCapitalR b then true
  else if isCapitalR b && !isCapitalR a then false
  else popD b ≤ popD a

/-- `specLE` as a decidable relation. -/
def specLEP (a b : GeoResult) : Prop := specLE a b = true

instance : DecidableRel specLEP := fun a b => by unfold specLEP; infer_instance

/-! ### Theorems -/

/-- The non-whitespace head predicate (vacuous for the empty string). -/
def headOk : List Char → Bool
  | [] => true
  | c :: _ => !wsChar c

/-- ASCII lower-case letters. -/
def lowerTable : List Char := "abcdefghijklmnopqrstuvwxyz".toList

/-- Modelled from the claim’s words: sort by `specLE`, take the top-ranked
candidate, accept it iff capital-level or population above 10 000. -/
def specGeneralFilter (results : List GeoResult) : Option GeoResult :=
  match List.insertionSort specLEP results with
  | [] => none
  | best :: _ => if isCapitalR best || hasPopOver best 10000 then some best else none

instance : IsTotal GeoResult geoLEP := by
  constructor
  intro a b
  unfold geoLEP geoLE
  by_cases ha : (a.feature_code == some pplc) = true <;>
    by_cases hb : (b.feature_code == some pplc) = true <;>
      simp [ha, hb] <;> omega

instance : IsTrans GeoResult geoLEP := by
  constructor
  intro a b c hab hbc
  unfold geoLEP geoLE at *
  by_cases ha : (a.feature_code == some pplc) = true <;>
    by_cases hb : (b.feature_code == some pplc) = true <;>
      by_cases hc : (c.feature_code == some pplc) = true <;>
        simp [ha, hb, hc] at * <;> omega

/-- Canonical whitespace form: every whitespace character is a plain space and
no two adjacent characters are both whitespace. `collapseWS` produces exactly
the lists with this property. -/
def okB : List Char → Bool
  | [] => true
  | [c] => !wsChar c || (c == ' ')
  | a :: b :: t => ((!wsChar a || (a == ' ')) && !(wsChar a && wsChar b)) && okB (b :: t)

/-! ### Theorems -/

theorem mapLetter_eq_passes (c : Char) :
    rYaHamza (rWawHamza (rMaddah (rHamzaAbove (rHamzaBelow (rTaMarbuta
      (rAlifMaksura c)))))) = mapLetter c := by
  by_cases h1 : c = 'ى'
  · subst h1; decide
  by_cases h2 : c = 'ة'
  · subst h2; decide
  by_cases h3 : c = 'إ'
  · subst h3; decide
  by_cases h4 : c = 'أ'
  · subst h4; decide
  by_cases h5 : c = 'آ'
  · subst h5; decide
  by_cases h6 : c = 'ؤ'
  · subst h6; decide
  by_cases h7 : c = 'ئ'
  · subst h7; decide
  simp [rAlifMaksura, rTaMarbuta, rHamzaBelow, rHamzaAbove, rMaddah, rWawHamza,
    rYaHamza, mapLetter, h1, h2, h3, h4, h5, h6, h7]

theorem normalizeArabicLetters_eq_map (l : List Char) :
    normalizeArabicLetters l = l.map mapLetter := by
  induction l with
  | nil => simp only [normalizeArabicLetters, List.map_nil]
  | cons c t ih =>
    simp only [normalizeArabicLetters, List.map_cons] at ih ⊢
    rw [mapLetter_eq_passes, ih]

theorem ammanScan_isJordan : ∀ {l : List GeoResult} {r : GeoResult},
    ammanScan l = some r → isJordanR r = true := by
  intro l
  induction l with
  | nil => intro r h; simp [ammanScan] at h
  | cons a t ih =>
    intro r h
    simp only [ammanScan] at h
    by_cases h1 : isJordanR a
    · simp only [h1, Bool.not_true, Bool.false_eq_true, if_false] at h
      by_cases h2 : (nameMatchesAmman a &&
          (isCapitalR a || hasPopOver a 100000 || hasPopOver a 50000)) = true
      · simp only [h2, if_true, Option.some.injEq] at h
        exact h ▸ h1
      · simp only [h2, if_false] at h
        exact ih h
    · simp only [Bool.not_eq_true] at h1
      simp only [h1, Bool.not_false, if_true] at h
      exact ih h

theorem ammanScan_mem : ∀ {l : List GeoResult} {r : GeoResult},
    ammanScan l = some r → r ∈ l := by
  intro l
  induction l with
  | nil => intro r h; simp [ammanScan] at h
  | cons a t ih =>
    intro r h
    simp only [ammanScan] at h
    by_cases h1 : isJordanR a
    · simp only [h1, Bool.not_true, Bool.false_eq_true, if_false] at h
      by_cases h2 : (nameMatchesAmman a &&
          (isCapitalR a || hasPopOver a 100000 || hasPopOver a 50000)) = true
      · simp only [h2, if_true, Option.some.injEq] at h
        exact h ▸ List.mem_cons_self a t
      · simp only [h2, if_false] at h
        exact List.mem_cons_of_mem a (ih h)
    · simp only [Bool.not_eq_true] at h1
      simp only [h1, Bool.not_false, if_true] at h
      exact List.mem_cons_of_mem a (ih h)

theorem generalBest_mem {l : List GeoResult} {r : GeoResult}
    (h : generalBest l = some r) : r ∈ l := by
  unfold generalBest at h
  cases hs : jsSorted l with
  | nil => rw [hs] at h; simp at h
  | cons b rest =>
    rw [hs] at h
    by_cases hb : (isCapitalR b || hasPopOver b 10000) = true
    · simp only [hb, if_true, Option.some.injEq] at h
      subst h
      have hbmem : b ∈ jsSorted l := by
        rw [hs]; exact List.mem_cons_self b rest
      exact ((List.perm_insertionSort geoLEP l).mem_iff).mp hbmem
    · simp [hb] at h

theorem filterGeo_mem {l : List GeoResult} {c : List Char} {r : GeoResult}
    (h : filterGeocodingResults l c = some r) : r ∈ l := by
  unfold filterGeocodingResults at h
  by_cases he : l = []
  · simp [he] at h
  · simp only [he, if_false] at h
    by_cases ha : isAmmanCity c = true
    · simp only [ha, if_true] at h
      exact ammanScan_mem h
    · simp only [ha, if_false] at h
      exact generalBest_mem h

theorem runStrats_sound (oracle : Oracle) :
    ∀ (sts : List Strat) (r : GeoResult), (runStrats oracle sts).1 = some r →
      ∃ q lang batch, oracle q lang = some batch ∧ r ∈ batch := by
  intro sts
  induction sts with
  | nil => intro r h; simp [runStrats] at h
  | cons st rest ih =>
    intro r h
    simp only [runStrats] at h
    cases ho : oracle st.query st.lang with
    | none =>
      rw [ho] at h
      exact ih r h
    | some batch =>
      simp only [ho] at h
      by_cases hb : batch ≠ []
      · rw [if_pos hb] at h
        cases hf : filterGeocodingResults batch st.filterArg with
        | none => rw [hf] at h; exact ih r h
        | some r0 =>
          rw [hf] at h
          simp only [Option.some.injEq] at h
          subst h
          exact ⟨st.query, st.lang, batch, ho, filterGeo_mem hf⟩
      · rw [if_neg hb] at h
        exact ih r h

/-- C1: whenever the guard classifies the raw input as the Amman city, the
filter returns no resolution or a candidate verified to be in Jordan (country
name `jordan`/`الأردن` or ISO code `jo`/`jor`); on the claim’s concrete batch
(one Jordan match, capital feature code, population 1 200 000, plus a
same-named match in another country) only the Jordan match is returned, and a
batch with only the foreign match yields no resolution. -/
theorem C1_guarded_true_country :
    (∀ (results : List GeoResult) (input : List Char) (r : GeoResult),
      isAmmanCity input = true → filterGeocodingResults results input = some r →
        isJordanR r = true) ∧
    filterGeocodingResults [otherAmman, jordanAmman] ammanLatin = some jordanAmman ∧
    filterGeocodingResults [otherAmman] ammanLatin = none := by
  refine ⟨?_, by decide, by decide⟩
  intro results input r hg hf
  unfold filterGeocodingResults at hf
  by_cases he : results = []
  · simp [he] at hf
  · simp only [he, if_false, hg, if_true] at hf
    exact ammanScan_isJordan hf

/-- C1 witness: the universal part applied to the concrete guarded batch. -/
theorem C1_guarded_true_country_witness : isJordanR jordanAmman = true :=
  C1_guarded_true_country.1 [otherAmman, jordanAmman] ammanLatin jordanAmman
    (by decide) (by decide)

/-- C2: evaluation of the guard detector at the failing inputs. The code’s
own comments say the patterns `'سلطنة عمان'` and `'عُمان'` (the colliding
country’s native-language phrasings) must make `isAmmanCity` return `false`,
but normalization rewrites ة→ه and strips the damma *before* those patterns
are tested, so both inputs are classified as the Amman city; only the Latin
phrasing is rejected as intended. -/
theorem C2_country_phrase_eval :
    isAmmanCity sultanateAr = true ∧ isAmmanCity omanArDiacritic = true ∧
    isAmmanCity sultanateLatin = false := by
  refine ⟨by decide, by decide, by decide⟩

/-- C5: any record the orchestrator resolves was a member of a batch returned
by the geocoding oracle during that attempt — never synthesized (and the
`Option` result type yields at most one resolved record per attempt). -/
theorem C5_resolved_from_batch (oracle : Oracle) (city : List Char) (r : GeoResult)
    (h : (geocodeCityRun oracle city).1 = some r) :
    ∃ q lang batch, oracle q lang = some batch ∧ r ∈ batch :=
  runStrats_sound oracle (geocodeCityStrats city) r h

/-- C5 witness: a stub oracle returning the Tokyo record as a one-element
batch resolves to exactly that record. -/
theorem C5_resolved_from_batch_witness :
    ∃ q lang batch, constTokyoOracle q lang = some batch ∧ tokyoRec ∈ batch :=
  C5_resolved_from_batch constTokyoOracle tokyoMixed tokyoRec (by decide)

/-- C6: blank (empty or whitespace-only) raw input short-circuits: the route
reports the input error and the orchestrator issues no geocode call at all,
for every oracle. -/
theorem C6_blank_input_no_call (oracle : Oracle) (city : List Char)
    (h : trimStr city = []) :
    routeCityOutcome oracle city = (CityOutcome.inputError, []) ∧
    geocodeCityRun oracle city = (none, []) := by
  have hs : geocodeCityStrats city = [] := by
    unfold geocodeCityStrats
    simp [h]
  constructor
  · unfold routeCityOutcome
    simp [h]
  · unfold geocodeCityRun
    rw [hs]
    rfl

/-- C6 witness: the whitespace-only input `"   "` with an oracle that would
otherwise return results. -/
theorem C6_blank_input_no_call_witness :
    routeCityOutcome constTokyoOracle blankInput = (CityOutcome.inputError, []) ∧
    geocodeCityRun constTokyoOracle blankInput = (none, []) :=
  C6_blank_input_no_call constTokyoOracle blankInput (by decide)

/-- C7: the exported normalizer `normalizeCityName` is total over JS values:
every non-string (null, undefined, number, boolean) input yields the empty
string default, never a raised error (totality of the Lean function models
the absence of exceptions; the function is pure by construction). -/
theorem C7_normalizer_total (v : JSVal) (h : v.isString = false) :
    normalizeCityNameJS v = [] := by
  cases v with
  | str s => simp [JSVal.isString] at h
  | nullV => rfl
  | undef => rfl
  | num n => rfl
  | boolV b => rfl

/-- C7 witness: the null input. -/
theorem C7_normalizer_total_witness : normalizeCityNameJS JSVal.nullV = [] :=
  C7_normalizer_total JSVal.nullV (by decide)

/-- C9: in the guarded path a Jordan record tagged with the national-capital
feature code `PPLC` is accepted regardless of its name: the `PPLC` disjunct
alone satisfies the name-match test and the capital disjunct satisfies the
population threshold. -/
theorem C9_pplc_any_name (r : GeoResult) (input : List Char)
    (h1 : isAmmanCity input = true) (h2 : isJordanR r = true)
    (h3 : r.feature_code = some pplc) :
    filterGeocodingResults [r] input = some r := by
  have hn : nameMatchesAmman r = true := by
    unfold nameMatchesAmman
    simp [h3]
  have hc : isCapitalR r = true := by
    unfold isCapitalR
    simp [h3]
  simp [filterGeocodingResults, ammanScan, h1, h2, hn, hc]

/-- C9 witness: a Jordanian `PPLC` record named `Zarqa` (no Amman variant) is
returned by the guarded filter. -/
theorem C9_pplc_any_name_witness :
    filterGeocodingResults [zarqaCapital] ammanAr = some zarqaCapital :=
  C9_pplc_any_name zarqaCapital ammanAr (by decide) (by decide) (by decide)

/-- C10 counterexample: `['A', U+064B]` contains a character of the Arabic
Unicode block, yet the normalizer lower-cases its Latin letter (the diacritic
is stripped before the lower-casing guard runs, leaving no Arabic character).
This refutes "for every input string that contains at least one character in
the Arabic Unicode block, the normalizer never lower-cases the Latin
letters". -/
theorem C10_counterexample :
    latinWithDiacritic.any isArabicChar = true ∧
    normalizeCityNameStr latinWithDiacritic = ['a'] := by
  refine ⟨by decide, by decide⟩

/-- C10 amended: the lower-casing step runs exactly when the *normalized*
string is free of Arabic characters — input whose normalized form still
contains an Arabic character is returned trimmed but case-untouched, while
input whose Arabic characters were all stripped by normalization is
lower-cased. -/
theorem C10_lowercase_guard :
    (∀ s : List Char, (normalizeArabicStr s).any isArabicChar = true →
      normalizeCityNameStr s = trimStr (normalizeArabicStr s)) ∧
    (∀ s : List Char, s ≠ [] → (normalizeArabicStr s).any isArabicChar = false →
      normalizeCityNameStr s = trimStr ((normalizeArabicStr s).map lowerChar)) := by
  constructor
  · intro s h
    by_cases hs : s = []
    · subst hs
      simp [normalizeArabicStr] at h
    · unfold normalizeCityNameStr
      simp [hs, h]
  · intro s hs h
    unfold normalizeCityNameStr
    simp [hs, h]

/-- C10 amended witness: mixed-script input keeps its Latin capital. -/
theorem C10_lowercase_guard_witness :
    normalizeCityNameStr mixedScript = trimStr (normalizeArabicStr mixedScript) :=
  C10_lowercase_guard.1 mixedScript (by decide)

theorem headOk_dropWhile (l : List Char) : headOk (l.dropWhile wsChar) = true := by
  induction l with
  | nil => rfl
  | cons a t ih =>
    by_cases h : wsChar a = true
    · simpa [List.dropWhile_cons, h] using ih
    · simp only [Bool.not_eq_true] at h
      simp [List.dropWhile_cons, h, headOk]

theorem dropWhile_of_headOk {m : List Char} (h : headOk m = true) :
    m.dropWhile wsChar = m := by
  cases m with
  | nil => rfl
  | cons a t =>
    simp only [headOk, Bool.not_eq_true'] at h
    simp [List.dropWhile_cons, h]

theorem trim_of_headOk {m : List Char} (h1 : headOk m = true)
    (h2 : headOk m.reverse = true) : trimStr m = m := by
  unfold trimStr
  rw [dropWhile_of_headOk h1, dropWhile_of_headOk h2, List.reverse_reverse]

theorem headOk_append_left {a b : List Char} (h : headOk (a ++ b) = true)
    (ha : a ≠ []) : headOk a = true := by
  cases a with
  | nil => exact absurd rfl ha
  | cons c t => simpa [headOk] using h

theorem headOk_revDrop {y : List Char} (hy : headOk y = true) :
    headOk ((y.reverse.dropWhile wsChar).reverse) = true := by
  by_cases hzn : ((y.reverse.dropWhile wsChar).reverse : List Char) = []
  · rw [hzn]; rfl
  · have hsplit : y.reverse.takeWhile wsChar ++ y.reverse.dropWhile wsChar =
        y.reverse := List.takeWhile_append_dropWhile wsChar _
    have hy2 : y = (y.reverse.dropWhile wsChar).reverse ++
        (y.reverse.takeWhile wsChar).reverse := by
      calc y = y.reverse.reverse := (List.reverse_reverse y).symm
      _ = (y.reverse.takeWhile wsChar ++ y.reverse.dropWhile wsChar).reverse := by
            rw [hsplit]
      _ = (y.reverse.dropWhile wsChar).reverse ++
            (y.reverse.takeWhile wsChar).reverse := by
            rw [List.reverse_append]
    rw [hy2] at hy
    exact headOk_append_left hy hzn

theorem trim_headOk (l : List Char) :
    headOk (trimStr l) = true ∧ headOk (trimStr l).reverse = true := by
  unfold trimStr
  constructor
  · exact headOk_revDrop (headOk_dropWhile l)
  · rw [List.reverse_reverse]
    exact headOk_dropWhile _

theorem trim_idem (l : List Char) : trimStr (trimStr l) = trimStr l :=
  trim_of_headOk (trim_headOk l).1 (trim_headOk l).2

theorem searchCityOf_trimmed (city : List Char) :
    trimStr (searchCityOf city) = searchCityOf city := by
  unfold searchCityOf
  by_cases hco : trimStr (beforeComma (trimStr city)) = []
  · simp [hco, trim_idem]
  · simp [hco, trim_idem]

theorem count_dropWhile_ws {ch : Char} (h : wsChar ch = false) (l : List Char) :
    (l.dropWhile wsChar).count ch = l.count ch := by
  induction l with
  | nil => rfl
  | cons a t ih =>
    by_cases ha : wsChar a = true
    · have hne : a ≠ ch := by
        intro e
        rw [e, h] at ha
        cases ha
      simp [List.dropWhile_cons, ha, ih, List.count_cons, hne]
    · simp only [Bool.not_eq_true] at ha
      simp [List.dropWhile_cons, ha]

theorem count_trimStr {ch : Char} (h : wsChar ch = false) (l : List Char) :
    (trimStr l).count ch = l.count ch := by
  unfold trimStr
  rw [List.count_reverse, count_dropWhile_ws h, List.count_reverse,
    count_dropWhile_ws h]

theorem count_collapseWS {ch : Char} (h : wsChar ch = false) (l : List Char) :
    (collapseWS l).count ch = l.count ch := by
  have hsp : (' ' : Char) ≠ ch := by
    intro e
    rw [← e] at h
    exact absurd h (by decide)
  induction l with
  | nil => rfl
  | cons a t ih =>
    cases t with
    | nil =>
      by_cases ha : wsChar a = true
      · have hne : a ≠ ch := by
          intro e
          rw [e, h] at ha
          cases ha
        simp [collapseWS, ha, List.count_cons, hne, hsp]
      · simp only [Bool.not_eq_true] at ha
        simp [collapseWS, ha]
    | cons b t2 =>
      by_cases ha : wsChar a = true
      · have hne : a ≠ ch := by
          intro e
          rw [e, h] at ha
          cases ha
        by_cases hb : wsChar b = true
        · simp [collapseWS, ha, hb, ih, List.count_cons, hne]
        · simp only [Bool.not_eq_true] at hb
          simp [collapseWS, ha, hb, List.count_cons, hne, hsp, ih]
      · simp only [Bool.not_eq_true] at ha
        simp [collapseWS, ha, List.count_cons, ih]

theorem count_map_pre {ch : Char} {g : Char → Char}
    (hpre : ∀ c, g c = ch → c = ch) (hself : g ch = ch) (l : List Char) :
    (l.map g).count ch = l.count ch := by
  induction l with
  | nil => rfl
  | cons a t ih =>
    by_cases ha : a = ch
    · subst ha
      simp [List.count_cons, hself, ih]
    · have hga : g a ≠ ch := fun e => ha (hpre a e)
      simp [List.count_cons, hga, ha, ih]

theorem count_removeDiacritics {ch : Char} (h : isDiacritic ch = false)
    (l : List Char) : (removeDiacritics l).count ch = l.count ch := by
  unfold removeDiacritics
  exact List.count_filter (by simp [h])

theorem mapLetter_cases (c : Char) :
    mapLetter c = c ∨ (c ∈ srcTable ∧ mapLetter c ∈ tgtTable) := by
  by_cases h1 : c = 'ى'
  · subst h1; right; exact ⟨by decide, by decide⟩
  by_cases h2 : c = 'ة'
  · subst h2; right; exact ⟨by decide, by decide⟩
  by_cases h3 : c = 'إ'
  · subst h3; right; exact ⟨by decide, by decide⟩
  by_cases h4 : c = 'أ'
  · subst h4; right; exact ⟨by decide, by decide⟩
  by_cases h5 : c = 'آ'
  · subst h5; right; exact ⟨by decide, by decide⟩
  by_cases h6 : c = 'ؤ'
  · subst h6; right; exact ⟨by decide, by decide⟩
  by_cases h7 : c = 'ئ'
  · subst h7; right; exact ⟨by decide, by decide⟩
  left
  simp [mapLetter, h1, h2, h3, h4, h5, h6, h7]

theorem lowerChar_cases (c : Char) :
    lowerChar c = c ∨ (c ∈ upperTable ∧ lowerChar c ∈ lowerTable) := by
  unfold lowerChar
  split <;> first
    | (left; rfl)
    | (right; exact ⟨by decide, by decide⟩)

theorem mapLetter_pre {ch : Char} (h : ch ∉ tgtTable) :
    ∀ c, mapLetter c = ch → c = ch := by
  intro c hc
  rcases mapLetter_cases c with h1 | ⟨_, h2⟩
  · rwa [h1] at hc
  · rw [hc] at h2
    exact absurd h2 h

theorem lowerChar_pre {ch : Char} (h : ch ∉ lowerTable) :
    ∀ c, lowerChar c = ch → c = ch := by
  intro c hc
  rcases lowerChar_cases c with h1 | ⟨_, h2⟩
  · rwa [h1] at hc
  · rw [hc] at h2
    exact absurd h2 h

theorem count_normalizeCityName {ch : Char} (hws : wsChar ch = false)
    (hd : isDiacritic ch = false)
    (hm : ∀ c, mapLetter c = ch → c = ch) (hmself : mapLetter ch = ch)
    (hl : ∀ c, lowerChar c = ch → c = ch) (hlself : lowerChar ch = ch)
    (s : List Char) : (normalizeCityNameStr s).count ch = s.count ch := by
  have hn : (normalizeArabicStr s).count ch = s.count ch := by
    unfold normalizeArabicStr
    by_cases hs : s = []
    · simp [hs]
    · simp only [hs, if_false]
      by_cases har : s.any isArabicChar = true
      · simp only [har, if_true]
        rw [count_collapseWS hws, normalizeArabicLetters_eq_map,
          count_map_pre hm hmself, count_removeDiacritics hd, count_trimStr hws]
      · simp only [har, Bool.false_eq_true, if_false]
        rw [count_collapseWS hws, count_trimStr hws]
  unfold normalizeCityNameStr
  by_cases hs : s = []
  · simp [hs]
  · simp only [hs, if_false]
    by_cases har2 : (normalizeArabicStr s).any isArabicChar = true
    · simp only [har2, if_true]
      rw [count_trimStr hws, hn]
    · simp only [har2, Bool.false_eq_true, if_false]
      rw [count_trimStr hws, count_map_pre hl hlself, hn]

theorem exists_append_of_isPre : ∀ {w s : List Char},
    w.isPrefixOf s = true → ∃ t, s = w ++ t := by
  intro w
  induction w with
  | nil => intro s _; exact ⟨s, rfl⟩
  | cons a wt ih =>
    intro s h
    cases s with
    | nil => simp [List.isPrefixOf] at h
    | cons b st =>
      simp only [List.isPrefixOf, Bool.and_eq_true, beq_iff_eq] at h
      obtain ⟨t, ht⟩ := ih h.2
      exact ⟨t, by rw [List.cons_append, ← h.1, ht]⟩

theorem stripStart_spec (s : List Char) :
    stripFillerStart s = s ∨
    ∃ w ∈ fillerWords, ∃ t, s = w ++ t ∧
      stripFillerStart s = t.dropWhile wsChar := by
  unfold stripFillerStart
  cases hf : fillerWords.find?
      (fun w => w.isPrefixOf s && wsHeadB (s.drop w.length)) with
  | none => left; rfl
  | some w =>
    right
    have hmem := List.mem_of_find?_eq_some hf
    have hcond := List.find?_some hf
    simp only [Bool.and_eq_true] at hcond
    obtain ⟨t, ht⟩ := exists_append_of_isPre hcond.1
    refine ⟨w, hmem, t, ht, ?_⟩
    show (s.drop w.length).dropWhile wsChar = t.dropWhile wsChar
    rw [ht, List.drop_left]

theorem stripEnd_spec (s : List Char) :
    stripFillerEnd s = s ∨
    ∃ w ∈ fillerWords, ∃ t, s.reverse = w.reverse ++ t ∧
      stripFillerEnd s = (t.dropWhile wsChar).reverse := by
  unfold stripFillerEnd
  dsimp only
  cases hf : fillerWords.find?
      (fun w => w.reverse.isPrefixOf s.reverse && wsHeadB (s.reverse.drop w.length)) with
  | none => left; rfl
  | some w =>
    right
    have hmem := List.mem_of_find?_eq_some hf
    have hcond := List.find?_some hf
    simp only [Bool.and_eq_true] at hcond
    obtain ⟨t, ht⟩ := exists_append_of_isPre hcond.1
    refine ⟨w, hmem, t, ht, ?_⟩
    show ((s.reverse.drop w.length).dropWhile wsChar).reverse =
      (t.dropWhile wsChar).reverse
    rw [ht, List.drop_left' (by simp)]

theorem filler_marker {w : List Char} (hw : w ∈ fillerWords) :
    ∃ ch : Char, wsChar ch = false ∧ isDiacritic ch = false ∧
      (∀ c, mapLetter c = ch → c = ch) ∧ mapLetter ch = ch ∧
      (∀ c, lowerChar c = ch → c = ch) ∧ lowerChar ch = ch ∧
      1 ≤ w.count ch := by
  simp only [fillerWords, List.mem_cons, List.not_mem_nil, or_false] at hw
  rcases hw with h | h | h | h
  · exact h ▸ ⟨'ف', by decide, by decide, mapLetter_pre (by decide), by decide,
      lowerChar_pre (by decide), by decide, by decide⟩
  · exact h ▸ ⟨'م', by decide, by decide, mapLetter_pre (by decide), by decide,
      lowerChar_pre (by decide), by decide, by decide⟩
  · exact h ▸ ⟨'ل', by decide, by decide, mapLetter_pre (by decide), by decide,
      lowerChar_pre (by decide), by decide, by decide⟩
  · exact h ▸ ⟨'ل', by decide, by decide, mapLetter_pre (by decide), by decide,
      lowerChar_pre (by decide), by decide, by decide⟩

theorem cleaned_marker {s : List Char} (hts : trimStr s = s)
    (hne : cleanedArabicOf s ≠ s) :
    ∃ ch : Char, wsChar ch = false ∧ isDiacritic ch = false ∧
      (∀ c, mapLetter c = ch → c = ch) ∧ mapLetter ch = ch ∧
      (∀ c, lowerChar c = ch → c = ch) ∧ lowerChar ch = ch ∧
      (cleanedArabicOf s).count ch < s.count ch := by
  rcases stripStart_spec s with h1 | ⟨w1, hw1, t, ht, hs1⟩
  · rcases stripEnd_spec (stripFillerStart s) with h2 | ⟨w2, hw2, t2, ht2, hs2⟩
    · exfalso
      apply hne
      unfold cleanedArabicOf
      rw [h2, h1, hts]
    · obtain ⟨ch, p1, p2, p3, p4, p5, p6, hcnt⟩ := filler_marker hw2
      refine ⟨ch, p1, p2, p3, p4, p5, p6, ?_⟩
      unfold cleanedArabicOf
      rw [hs2, count_trimStr p1, List.count_reverse, count_dropWhile_ws p1]
      rw [h1] at ht2
      have hsc : s.count ch = w2.count ch + t2.count ch := by
        have h3 := congrArg (List.count ch) ht2
        simpa [List.count_reverse] using h3
      omega
  · obtain ⟨ch, p1, p2, p3, p4, p5, p6, hcnt⟩ := filler_marker hw1
    refine ⟨ch, p1, p2, p3, p4, p5, p6, ?_⟩
    have hs_count : s.count ch = w1.count ch + t.count ch := by
      rw [ht]
      simp
    rcases stripEnd_spec (stripFillerStart s) with h2 | ⟨w2, hw2, t2, ht2, hs2⟩
    · unfold cleanedArabicOf
      rw [h2, hs1, count_trimStr p1, count_dropWhile_ws p1]
      omega
    · unfold cleanedArabicOf
      rw [hs2, count_trimStr p1, List.count_reverse, count_dropWhile_ws p1]
      rw [hs1] at ht2
      have hu : (t.dropWhile wsChar).count ch = w2.count ch + t2.count ch := by
        have h3 := congrArg (List.count ch) ht2
        simpa [List.count_reverse] using h3
      have hdw : (t.dropWhile wsChar).count ch = t.count ch := count_dropWhile_ws p1 t
      omega

theorem cleaned_ne_normalized {s : List Char} (hts : trimStr s = s)
    (hne : cleanedArabicOf s ≠ s) :
    cleanedArabicOf s ≠ normalizeCityNameStr s := by
  obtain ⟨ch, hws, hd, hm, hmself, hl, hlself, hlt⟩ := cleaned_marker hts hne
  intro heq
  have h1 : (cleanedArabicOf s).count ch = (normalizeCityNameStr s).count ch := by
    rw [heq]
  rw [count_normalizeCityName hws hd hm hmself hl hlself] at h1
  omega

theorem geoLE_refl (a : GeoResult) : geoLE a a = true := by
  simp [geoLE]

theorem generalBest_sound {l : List GeoResult} {input : List Char} {r : GeoResult}
    (hg : isAmmanCity input = false) (h : filterGeocodingResults l input = some r) :
    r ∈ l ∧ (isCapitalR r || hasPopOver r 10000) = true ∧
      ∀ c ∈ l, geoLE r c = true := by
  have hmem : r ∈ l := filterGeo_mem h
  unfold filterGeocodingResults at h
  by_cases he : l = []
  · simp [he] at h
  · simp only [he, if_false, hg, Bool.false_eq_true, if_false] at h
    unfold generalBest at h
    have hsorted : List.Sorted geoLEP (jsSorted l) :=
      List.sorted_insertionSort geoLEP l
    have hperm : List.Perm (jsSorted l) l := List.perm_insertionSort geoLEP l
    cases hs : jsSorted l with
    | nil => rw [hs] at h; simp at h
    | cons b rest =>
      rw [hs] at h
      by_cases hb : (isCapitalR b || hasPopOver b 10000) = true
      · simp only [hb, if_true, Option.some.injEq] at h
        subst h
        refine ⟨hmem, hb, ?_⟩
        intro c hc
        have hc' : c ∈ jsSorted l := hperm.mem_iff.mpr hc
        rw [hs] at hc'
        rcases List.mem_cons.mp hc' with hcb | hcr
        · rw [hcb]; exact geoLE_refl b
        · rw [hs] at hsorted
          exact List.rel_of_sorted_cons hsorted c hcr
      · simp [hb] at h

theorem generalBest_rejects {l : List GeoResult} {input : List Char}
    (hg : isAmmanCity input = false) (hne : l ≠ [])
    (h : filterGeocodingResults l input = none) :
    ∃ b ∈ l, (∀ c ∈ l, geoLE b c = true) ∧
      (isCapitalR b || hasPopOver b 10000) = false := by
  unfold filterGeocodingResults at h
  simp only [hne, if_false, hg, Bool.false_eq_true, if_false] at h
  unfold generalBest at h
  have hsorted : List.Sorted geoLEP (jsSorted l) :=
    List.sorted_insertionSort geoLEP l
  have hperm : List.Perm (jsSorted l) l := List.perm_insertionSort geoLEP l
  cases hs : jsSorted l with
  | nil =>
    rw [hs] at hperm
    exact absurd hperm.symm.eq_nil hne
  | cons b rest =>
    rw [hs] at h
    by_cases hb : (isCapitalR b || hasPopOver b 10000) = true
    · simp [hb] at h
    · refine ⟨b, ?_, ?_, by simpa using hb⟩
      · exact hperm.mem_iff.mp (hs ▸ List.mem_cons_self b rest)
      · intro c hc
        have hc' : c ∈ jsSorted l := hperm.mem_iff.mpr hc
        rw [hs] at hc'
        rcases List.mem_cons.mp hc' with hcb | hcr
        · rw [hcb]; exact geoLE_refl b
        · rw [hs] at hsorted
          exact List.rel_of_sorted_cons hsorted c hcr

/-- C3 counterexample: on the non-guarded batch `[PPLA pop 1000, plain pop
2 000 000]` the claim’s rule (admin/national capital above all else) selects
the admin capital, but the code’s sort prioritizes only `PPLC`, so the filter
returns the 2 000 000-population record — the claim is false of the code. -/
theorem C3_counterexample :
    isAmmanCity parisQuery = false ∧
    specGeneralFilter [pplaSmall, bigTown] = some pplaSmall ∧
    filterGeocodingResults [pplaSmall, bigTown] parisQuery = some bigTown ∧
    pplaSmall ≠ bigTown := by
  refine ⟨by decide, by decide, by decide, by decide⟩

/-- C3 amended: for non-guarded input the filter sorts with *national*
capitals (`PPLC`) above all else, then descending population (missing
population as zero); admin capitals (`PPLA`) rank only by population but
still count as capital-level for acceptance. Any returned record is a
top-ranked member of the batch passing the accept test (capital-level or
population above 10 000); a non-empty batch yields no resolution exactly
when its top-ranked record fails that test; and the claim’s concrete
examples hold: populations 5 000 / 80 000 / 2 000 000 with no capital flags
resolve to the 2 000 000 record, and a single population-3 000 record yields
no resolution. -/
theorem C3_general_rule :
    (∀ (l : List GeoResult) (input : List Char) (r : GeoResult),
      isAmmanCity input = false → filterGeocodingResults l input = some r →
        r ∈ l ∧ (isCapitalR r || hasPopOver r 10000) = true ∧
          ∀ c ∈ l, geoLE r c = true) ∧
    (∀ (l : List GeoResult) (input : List Char),
      isAmmanCity input = false → l ≠ [] → filterGeocodingResults l input = none →
        ∃ b ∈ l, (∀ c ∈ l, geoLE b c = true) ∧
          (isCapitalR b || hasPopOver b 10000) = false) ∧
    filterGeocodingResults [town5k, town80k, town2m] parisQuery = some town2m ∧
    filterGeocodingResults [town3k] parisQuery = none := by
  refine ⟨?_, ?_, by decide, by decide⟩
  · intro l input r hg h
    exact generalBest_sound hg h
  · intro l input hg hne h
    exact generalBest_rejects hg hne h

/-- C3 witness: the universal parts applied to the claim’s concrete batches. -/
theorem C3_general_rule_witness :
    (town2m ∈ [town5k, town80k, town2m] ∧
      (isCapitalR town2m || hasPopOver town2m 10000) = true ∧
      ∀ c ∈ [town5k, town80k, town2m], geoLE town2m c = true) ∧
    ∃ b ∈ [town3k], (∀ c ∈ [town3k], geoLE b c = true) ∧
      (isCapitalR b || hasPopOver b 10000) = false := by
  constructor
  · exact C3_general_rule.1 [town5k, town80k, town2m] parisQuery town2m
      (by decide) (by decide)
  · exact C3_general_rule.2.1 [town3k] parisQuery (by decide) (by decide) (by decide)

/-- C4 counterexample: for the raw input `"tokyo"` the part_005 planner
(`geocodeCityName`) emits the identical `(queryString, languageHint)` pair
twice — normalization leaves the query unchanged, and the non-`ar` branch
builds `[searchQuery, searchQuery]`. -/
theorem C4_counterexample :
    geocodeCityNamePlan tokyoQuery = [(tokyoQuery, langEn), (tokyoQuery, langEn)] ∧
    ¬ (geocodeCityNamePlan tokyoQuery).Nodup := by
  refine ⟨by decide, by decide⟩

theorem part004_plan_nodup (city : List Char) : (geocodeCityPlan city).Nodup := by
  unfold geocodeCityPlan geocodeCityStrats
  by_cases ht : trimStr city = []
  · simp [ht]
  · simp only [ht, if_false]
    have hts : trimStr (searchCityOf city) = searchCityOf city :=
      searchCityOf_trimmed city
    have hAB : ¬ (langAr = langEn) := by decide
    by_cases har : (searchCityOf city).any isArabicChar = true
    · simp only [har, if_true]
      by_cases hng : normalizeCityNameStr (searchCityOf city) ≠ searchCityOf city ∧
          normalizeCityNameStr (searchCityOf city) ≠ (searchCityOf city).map lowerChar
      · by_cases hcg : cleanedArabicOf (searchCityOf city) ≠ [] ∧
            cleanedArabicOf (searchCityOf city) ≠ searchCityOf city
        · have hcn : cleanedArabicOf (searchCityOf city) ≠
              normalizeCityNameStr (searchCityOf city) :=
            cleaned_ne_normalized hts hcg.2
          have hBA : ¬ (langEn = langAr) := by decide
          have hSN : ¬ searchCityOf city = normalizeCityNameStr (searchCityOf city) :=
            fun e => hng.1 e.symm
          have hSC : ¬ searchCityOf city = cleanedArabicOf (searchCityOf city) :=
            fun e => hcg.2 e.symm
          have hNC : ¬ normalizeCityNameStr (searchCityOf city) =
              cleanedArabicOf (searchCityOf city) := fun e => hcn e.symm
          simp [hng, hcg, List.nodup_cons, Prod.mk.injEq, hAB, hcn]
          exact ⟨⟨hSN, hSC⟩, hNC, ⟨hSN, fun _ => hBA, hSC⟩, fun _ => hBA, hNC⟩
        · simp [hng, hcg, List.nodup_cons, Prod.mk.injEq, hAB]
          exact fun e => hng.1 e.symm
      · by_cases hcg : cleanedArabicOf (searchCityOf city) ≠ [] ∧
            cleanedArabicOf (searchCityOf city) ≠ searchCityOf city
        · have hBA : ¬ (langEn = langAr) := by decide
          have hSC : ¬ searchCityOf city = cleanedArabicOf (searchCityOf city) :=
            fun e => hcg.2 e.symm
          simp [hng, hcg, List.nodup_cons, Prod.mk.injEq, hAB]
          exact ⟨hSC, fun _ => hBA, hSC⟩
        · simp [hng, hcg, List.nodup_cons, Prod.mk.injEq, hAB]
    · simp only [har, Bool.false_eq_true, if_false]
      by_cases hng : normalizeCityNameStr (searchCityOf city) ≠ searchCityOf city ∧
          normalizeCityNameStr (searchCityOf city) ≠ (searchCityOf city).map lowerChar
      · simp [hng, List.nodup_cons, Prod.mk.injEq, hAB]
        exact fun e => hng.1 e.symm
      · simp [hng, List.nodup_cons, Prod.mk.injEq, hAB]

theorem part005_plan_nodup (input : List Char)
    (hne : normalizeCityNameStr (searchCityOf input) ≠ searchCityOf input) :
    (geocodeCityNamePlan input).Nodup := by
  unfold geocodeCityNamePlan
  by_cases hg : input = [] ∨ trimStr input = []
  · simp [hg]
  · simp only [hg, if_false]
    have hLang : ¬ (langEn = langAr) := by decide
    by_cases har : (searchCityOf input).any isArabicChar = true
    · simp only [har, if_true]
      simp [hne, hLang, List.nodup_cons, Prod.mk.injEq]
      have hAB : ¬ (langAr = langEn) := by decide
      exact ⟨⟨fun e => hne e.symm, fun _ => hAB, hAB⟩, hAB⟩
    · simp only [har, Bool.false_eq_true, if_false]
      simp [hne, hLang, List.nodup_cons, Prod.mk.injEq]

/-- C4 amended: the part_004 planner (`geocodeCity`) never plans two
identical `(queryString, languageHint)` pairs, for any raw input; the
part_005 planner (`geocodeCityName`) has no duplicates whenever normalizing
the city-only query changes it, but otherwise repeats the identical pair
(see the counterexample). -/
theorem C4_no_duplicate_plan :
    (∀ city : List Char, (geocodeCityPlan city).Nodup) ∧
    (∀ input : List Char,
      normalizeCityNameStr (searchCityOf input) ≠ searchCityOf input →
        (geocodeCityNamePlan input).Nodup) :=
  ⟨part004_plan_nodup, part005_plan_nodup⟩

/-- C4 amended witness: the input `"Tokyo"` (normalization lower-cases it, so
the part_005 hypothesis holds). -/
theorem C4_no_duplicate_plan_witness :
    (geocodeCityPlan tokyoMixed).Nodup ∧ (geocodeCityNamePlan tokyoMixed).Nodup :=
  ⟨C4_no_duplicate_plan.1 tokyoMixed, C4_no_duplicate_plan.2 tokyoMixed (by decide)⟩

theorem collapseWS_cons_not_ws {b : Char} (hb : wsChar b = false) (t : List Char) :
    ∃ u, collapseWS (b :: t) = b :: u := by
  cases t with
  | nil => exact ⟨[], by simp [collapseWS, hb]⟩
  | cons c t2 => exact ⟨collapseWS (c :: t2), by simp [collapseWS, hb]⟩

theorem okB_collapseWS (l : List Char) : okB (collapseWS l) = true := by
  induction l with
  | nil => rfl
  | cons a t ih =>
    cases t with
    | nil =>
      by_cases ha : wsChar a = true
      · simp [collapseWS, ha, okB]
      · simp only [Bool.not_eq_true] at ha
        simp [collapseWS, ha, okB]
    | cons b t2 =>
      by_cases ha : wsChar a = true
      · by_cases hb : wsChar b = true
        · simpa [collapseWS, ha, hb] using ih
        · simp only [Bool.not_eq_true] at hb
          obtain ⟨u, hu⟩ := collapseWS_cons_not_ws hb t2
          simp only [collapseWS, ha, hb, Bool.and_false, Bool.and_true, if_true, if_false]
          rw [hu] at ih ⊢
          simp [okB, hb, ih]
      · simp only [Bool.not_eq_true] at ha
        cases hc : collapseWS (b :: t2) with
        | nil =>
          simp [collapseWS, ha, hc, okB]
        | cons c u =>
          rw [hc] at ih
          by_cases hb : wsChar b = true
          · -- head of collapseWS (b::t2) when b is ws: could be ' '
            have hcsp : ¬ wsChar a = true := by simp [ha]
            simp only [collapseWS, ha, hb, Bool.false_and, Bool.and_false, if_false]
            rw [hc]
            -- need okB (a :: c :: u): a not ws
            have h1 := ih
            simp [okB, ha, h1]
          · simp only [Bool.not_eq_true] at hb
            simp only [collapseWS, ha, hb, Bool.false_and, Bool.and_false, if_false]
            rw [hc]
            simp [okB, ha, ih]

theorem collapseWS_of_okB : ∀ {m : List Char}, okB m = true → collapseWS m = m := by
  intro m
  induction m with
  | nil => intro _; rfl
  | cons a t ih =>
    intro h
    cases t with
    | nil =>
      simp only [okB, Bool.or_eq_true, Bool.not_eq_true', beq_iff_eq] at h
      rcases h with h | h
      · simp [collapseWS, h]
      · simp [collapseWS, h]
    | cons b t2 =>
      simp only [okB, Bool.and_eq_true, Bool.or_eq_true, Bool.not_eq_true',
        beq_iff_eq, Bool.and_eq_false_iff] at h
      obtain ⟨⟨h1, h2⟩, h3⟩ := h
      have htail : collapseWS (b :: t2) = b :: t2 := ih (by
        simpa [okB] using h3)
      rcases h2 with h2 | h2
      · -- wsChar a = false
        simp [collapseWS, h2, htail]
      · -- wsChar b = false
        rcases h1 with h1 | h1
        · simp [collapseWS, h1, h2, htail]
        · -- a = ' '
          subst h1
          have hsp : wsChar ' ' = true := by decide
          simp [collapseWS, h2, hsp, htail]

theorem okB_tail {a : Char} {l : List Char} (h : okB (a :: l) = true) :
    okB l = true := by
  cases l with
  | nil => rfl
  | cons b t =>
    simp only [okB, Bool.and_eq_true] at h
    simpa [okB] using h.2

theorem okB_append_right : ∀ {x y : List Char}, okB (x ++ y) = true →
    okB y = true := by
  intro x
  induction x with
  | nil => intro y h; exact h
  | cons a t ih => intro y h; exact ih (okB_tail h)

theorem okB_append_left : ∀ {x y : List Char}, okB (x ++ y) = true →
    okB x = true := by
  intro x
  induction x with
  | nil => intro y _; rfl
  | cons a t ih =>
    intro y h
    cases t with
    | nil =>
      cases y with
      | nil => simpa using h
      | cons d u =>
        simp only [List.cons_append, List.nil_append, okB, Bool.and_eq_true] at h
        simp [okB, h.1.1]
    | cons b t2 =>
      simp only [List.cons_append, okB, Bool.and_eq_true] at h
      have h2 : okB (b :: t2) = true := ih (by simpa using h.2)
      simp only [okB, Bool.and_eq_true]
      exact ⟨h.1, h2⟩

theorem okB_trimStr {m : List Char} (h : okB m = true) :
    okB (trimStr m) = true := by
  have h1 : okB (m.dropWhile wsChar) = true := by
    have hsplit := List.takeWhile_append_dropWhile (p := wsChar) (l := m)
    rw [← hsplit] at h
    exact okB_append_right h
  unfold trimStr
  have hsplit2 := List.takeWhile_append_dropWhile (p := wsChar)
    (l := (m.dropWhile wsChar).reverse)
  have hy2 : m.dropWhile wsChar =
      ((m.dropWhile wsChar).reverse.dropWhile wsChar).reverse ++
        ((m.dropWhile wsChar).reverse.takeWhile wsChar).reverse := by
    calc m.dropWhile wsChar = (m.dropWhile wsChar).reverse.reverse :=
          (List.reverse_reverse _).symm
    _ = ((m.dropWhile wsChar).reverse.takeWhile wsChar ++
          (m.dropWhile wsChar).reverse.dropWhile wsChar).reverse := by rw [hsplit2]
    _ = _ := by rw [List.reverse_append]
  rw [hy2] at h1
  exact okB_append_left h1

theorem lowerChar_ws (c : Char) : wsChar (lowerChar c) = wsChar c := by
  rcases lowerChar_cases c with h | ⟨h1, h2⟩
  · rw [h]
  · have hu : ∀ x ∈ upperTable, wsChar x = false := by decide
    have hl : ∀ x ∈ lowerTable, wsChar x = false := by decide
    rw [hu c h1, hl _ h2]

theorem lowerChar_space : ∀ c, lowerChar c = ' ' → c = ' ' :=
  lowerChar_pre (by decide)

theorem lowerChar_idem (c : Char) : lowerChar (lowerChar c) = lowerChar c := by
  rcases lowerChar_cases c with h | ⟨_, h2⟩
  · rw [h, h]
  · have hl : ∀ x ∈ lowerTable, lowerChar x = x := by decide
    rw [hl _ h2]

theorem lowerChar_arabic (c : Char) : isArabicChar (lowerChar c) = isArabicChar c := by
  rcases lowerChar_cases c with h | ⟨h1, h2⟩
  · rw [h]
  · have hu : ∀ x ∈ upperTable, isArabicChar x = false := by decide
    have hl : ∀ x ∈ lowerTable, isArabicChar x = false := by decide
    rw [hu c h1, hl _ h2]

theorem mapLetter_idem (c : Char) : mapLetter (mapLetter c) = mapLetter c := by
  rcases mapLetter_cases c with h | ⟨_, h2⟩
  · rw [h, h]
  · have ht : ∀ x ∈ tgtTable, mapLetter x = x := by decide
    rw [ht _ h2]

theorem mapLetter_not_diac {c : Char} (h : isDiacritic c = false) :
    isDiacritic (mapLetter c) = false := by
  rcases mapLetter_cases c with h1 | ⟨_, h2⟩
  · rw [h1, h]
  · have ht : ∀ x ∈ tgtTable, isDiacritic x = false := by decide
    rw [ht _ h2]

theorem okB_map_lower {m : List Char} (h : okB m = true) :
    okB (m.map lowerChar) = true := by
  induction m with
  | nil => rfl
  | cons a t ih =>
    cases t with
    | nil =>
      simp only [List.map_cons, List.map_nil, okB, Bool.or_eq_true,
        Bool.not_eq_true', beq_iff_eq] at h ⊢
      rcases h with h | h
      · left; rw [lowerChar_ws, h]
      · right; rw [h]; decide
    | cons b t2 =>
      simp only [okB, Bool.and_eq_true, Bool.or_eq_true, Bool.not_eq_true',
        beq_iff_eq, Bool.and_eq_false_iff, List.map_cons] at h ⊢
      obtain ⟨⟨h1, h2⟩, h3⟩ := h
      have ih2 := ih (by simpa [okB] using h3)
      simp only [List.map_cons] at ih2
      refine ⟨⟨?_, ?_⟩, by simpa [okB] using ih2⟩
      · rcases h1 with h1 | h1
        · left; rw [lowerChar_ws, h1]
        · right; rw [h1]; decide
      · rcases h2 with h2 | h2
        · left; rw [lowerChar_ws, h2]
        · right; rw [lowerChar_ws, h2]

theorem mem_collapseWS : ∀ {l : List Char} {c : Char}, c ∈ collapseWS l →
    c ∈ l ∨ c = ' ' := by
  intro l
  induction l with
  | nil => intro c h; simp [collapseWS] at h
  | cons a t ih =>
    intro c h
    cases t with
    | nil =>
      by_cases ha : wsChar a = true
      · simp [collapseWS, ha] at h
        right; exact h
      · simp only [Bool.not_eq_true] at ha
        simp [collapseWS, ha] at h
        left; simp [h]
    | cons b t2 =>
      by_cases hab : (wsChar a && wsChar b) = true
      · simp only [collapseWS, hab, if_true] at h
        rcases ih h with h2 | h2
        · left; exact List.mem_cons_of_mem a h2
        · right; exact h2
      · simp only [collapseWS, hab, Bool.false_eq_true, if_false,
          List.mem_cons] at h
        rcases h with h | h
        · by_cases ha : wsChar a = true
          · simp only [ha, if_true] at h
            right; exact h
          · simp only [ha, Bool.false_eq_true, if_false] at h
            left; rw [h]; exact List.mem_cons_self a _
        · rcases ih h with h2 | h2
          · left; exact List.mem_cons_of_mem a h2
          · right; exact h2

theorem mem_trimStr {l : List Char} {c : Char} (h : c ∈ trimStr l) : c ∈ l := by
  unfold trimStr at h
  rw [List.mem_reverse] at h
  have h2 := (List.dropWhile_sublist (l := (l.dropWhile wsChar).reverse) wsChar).mem h
  rw [List.mem_reverse] at h2
  exact (List.dropWhile_sublist wsChar).mem h2

theorem mem_dropWhile_of_not_ws {l : List Char} {c : Char} (hc : c ∈ l)
    (hws : wsChar c = false) : c ∈ l.dropWhile wsChar := by
  have hsplit := List.takeWhile_append_dropWhile (p := wsChar) (l := l)
  rw [← hsplit, List.mem_append] at hc
  rcases hc with hc | hc
  · have := List.mem_takeWhile_imp hc
    rw [this] at hws
    cases hws
  · exact hc

theorem mem_trimStr_of_not_ws {l : List Char} {c : Char} (hc : c ∈ l)
    (hws : wsChar c = false) : c ∈ trimStr l := by
  unfold trimStr
  rw [List.mem_reverse]
  apply mem_dropWhile_of_not_ws _ hws
  rw [List.mem_reverse]
  exact mem_dropWhile_of_not_ws hc hws

theorem arabic_not_ws {c : Char} (h : isArabicChar c = true) :
    wsChar c = false := by
  by_contra hw
  simp only [Bool.not_eq_false] at hw
  have hmem : c ∈ wsList := by
    have h2 : wsList.elem c = true := hw
    rw [List.elem_eq_mem] at h2
    exact of_decide_eq_true h2
  fin_cases hmem <;> exact absurd h (by decide)

theorem okB_normalizeArabic (s : List Char) :
    okB (normalizeArabicStr s) = true := by
  by_cases hs : s = []
  · subst hs; rfl
  · unfold normalizeArabicStr
    by_cases hsa : s.any isArabicChar = true
    · simp only [hs, if_false, hsa, if_true]
      exact okB_collapseWS _
    · simp only [hs, if_false, hsa, Bool.false_eq_true]
      exact okB_collapseWS _

theorem normalizeArabic_shape_arabic {s : List Char} (hs : s ≠ [])
    (hsa : s.any isArabicChar = true) :
    normalizeArabicStr s =
      collapseWS (List.map mapLetter (removeDiacritics (trimStr s))) := by
  unfold normalizeArabicStr
  simp [hs, hsa, normalizeArabicLetters_eq_map]

theorem normalizeArabic_no_diac {s : List Char} (hs : s ≠ [])
    (hsa : s.any isArabicChar = true) :
    ∀ c ∈ normalizeArabicStr s, isDiacritic c = false := by
  rw [normalizeArabic_shape_arabic hs hsa]
  intro c hc
  rcases mem_collapseWS hc with h | h
  · obtain ⟨d, hd, he⟩ := List.mem_map.mp h
    have hd2 : d ∈ (trimStr s).filter (fun c => !isDiacritic c) := hd
    have hdd : isDiacritic d = false := by
      have := (List.mem_filter.mp hd2).2
      simpa using this
    rw [← he]
    exact mapLetter_not_diac hdd
  · rw [h]; decide

theorem normalizeArabic_mapLetter_fixed {s : List Char} (hs : s ≠ [])
    (hsa : s.any isArabicChar = true) :
    ∀ c ∈ normalizeArabicStr s, mapLetter c = c := by
  rw [normalizeArabic_shape_arabic hs hsa]
  intro c hc
  rcases mem_collapseWS hc with h | h
  · obtain ⟨d, _, he⟩ := List.mem_map.mp h
    rw [← he]
    exact mapLetter_idem d
  · rw [h]; decide

theorem normArabic_fixed_arabic {y : List Char} (hok : okB y = true)
    (htr : trimStr y = y) (hnd : ∀ c ∈ y, isDiacritic c = false)
    (hmf : ∀ c ∈ y, mapLetter c = c) (hy : y.any isArabicChar = true) :
    normalizeArabicStr y = y := by
  have hyne : y ≠ [] := by
    intro e
    rw [e] at hy
    simp at hy
  unfold normalizeArabicStr
  simp only [hyne, if_false, hy, if_true]
  rw [htr]
  have hfil : removeDiacritics y = y := by
    unfold removeDiacritics
    rw [List.filter_eq_self]
    intro a ha
    simp [hnd a ha]
  rw [hfil, normalizeArabicLetters_eq_map]
  have hmap : y.map mapLetter = y := by
    have h2 := List.map_congr_left (f := mapLetter) (g := id) (fun a ha => hmf a ha)
    simpa using h2
  rw [hmap]
  exact collapseWS_of_okB hok

theorem normArabic_fixed_plain {y : List Char} (hok : okB y = true)
    (htr : trimStr y = y) (hy : y.any isArabicChar = false) :
    normalizeArabicStr y = y := by
  by_cases hyne : y = []
  · subst hyne; rfl
  · unfold normalizeArabicStr
    simp only [hyne, if_false, hy, Bool.false_eq_true]
    rw [htr]
    exact collapseWS_of_okB hok

/-- C8: the normalizer `normalizeCityName` (diacritic stripping, letter-form
canonicalization, whitespace collapsing, trimming, Latin lower-casing) is
idempotent on every string: a second application changes nothing, because a
normalized string is trim-fixed, whitespace-canonical, diacritic-free with
letter-forms canonical (when it kept Arabic) or lower-case-fixed (when it did
not). -/
theorem C8_normalize_idempotent (s : List Char) :
    normalizeCityNameStr (normalizeCityNameStr s) = normalizeCityNameStr s := by
  by_cases hs : s = []
  · subst hs; rfl
  by_cases hA : (normalizeArabicStr s).any isArabicChar = true
  · have hNs : normalizeCityNameStr s = trimStr (normalizeArabicStr s) := by
      unfold normalizeCityNameStr
      simp [hs, hA]
    have hsa : s.any isArabicChar = true := by
      by_contra hsa
      simp only [Bool.not_eq_true] at hsa
      obtain ⟨c, hc, hcarab⟩ := List.any_eq_true.mp hA
      have hshape : normalizeArabicStr s = collapseWS (trimStr s) := by
        unfold normalizeArabicStr
        simp [hs, hsa]
      rw [hshape] at hc
      rcases mem_collapseWS hc with h | h
      · have hcs : c ∈ s := mem_trimStr h
        exact (List.any_eq_false.mp hsa c hcs) hcarab
      · rw [h] at hcarab
        exact absurd hcarab (by decide)
    have hok_n : okB (normalizeArabicStr s) = true := okB_normalizeArabic s
    have hnd_n := normalizeArabic_no_diac hs hsa
    have hmf_n := normalizeArabic_mapLetter_fixed hs hsa
    have hok_y : okB (trimStr (normalizeArabicStr s)) = true := okB_trimStr hok_n
    have htr_y := trim_idem (normalizeArabicStr s)
    have hnd_y : ∀ c ∈ trimStr (normalizeArabicStr s), isDiacritic c = false :=
      fun c hc => hnd_n c (mem_trimStr hc)
    have hmf_y : ∀ c ∈ trimStr (normalizeArabicStr s), mapLetter c = c :=
      fun c hc => hmf_n c (mem_trimStr hc)
    have hy_arab : (trimStr (normalizeArabicStr s)).any isArabicChar = true := by
      obtain ⟨c, hc, hcarab⟩ := List.any_eq_true.mp hA
      exact List.any_eq_true.mpr
        ⟨c, mem_trimStr_of_not_ws hc (arabic_not_ws hcarab), hcarab⟩
    have hyne : trimStr (normalizeArabicStr s) ≠ [] := by
      intro e
      rw [e] at hy_arab
      simp at hy_arab
    have hn' : normalizeArabicStr (trimStr (normalizeArabicStr s)) =
        trimStr (normalizeArabicStr s) :=
      normArabic_fixed_arabic hok_y htr_y hnd_y hmf_y hy_arab
    rw [hNs]
    unfold normalizeCityNameStr
    simp only [hyne, if_false, hn', hy_arab, if_true]
    exact htr_y
  · simp only [Bool.not_eq_true] at hA
    have hNs : normalizeCityNameStr s =
        trimStr ((normalizeArabicStr s).map lowerChar) := by
      unfold normalizeCityNameStr
      simp [hs, hA]
    have hok_n : okB (normalizeArabicStr s) = true := okB_normalizeArabic s
    have hok_n2 : okB ((normalizeArabicStr s).map lowerChar) = true :=
      okB_map_lower hok_n
    have hok_y := okB_trimStr hok_n2
    have htr_y := trim_idem ((normalizeArabicStr s).map lowerChar)
    have hy_arab : (trimStr ((normalizeArabicStr s).map lowerChar)).any
        isArabicChar = false := by
      rw [List.any_eq_false]
      intro c hc hcarab
      obtain ⟨d, hd, he⟩ := List.mem_map.mp (mem_trimStr hc)
      rw [← he, lowerChar_arabic] at hcarab
      exact (List.any_eq_false.mp hA d hd) hcarab
    have hlf_y : ∀ c ∈ trimStr ((normalizeArabicStr s).map lowerChar),
        lowerChar c = c := by
      intro c hc
      obtain ⟨d, _, he⟩ := List.mem_map.mp (mem_trimStr hc)
      rw [← he]
      exact lowerChar_idem d
    by_cases hyne : trimStr ((normalizeArabicStr s).map lowerChar) = []
    · rw [hNs, hyne]
      rfl
    · have hn' : normalizeArabicStr (trimStr ((normalizeArabicStr s).map lowerChar)) =
          trimStr ((normalizeArabicStr s).map lowerChar) :=
        normArabic_fixed_plain hok_y htr_y hy_arab
      rw [hNs]
      unfold normalizeCityNameStr
      simp only [hyne, if_false, hn', hy_arab, Bool.false_eq_true]
      have hmap : (trimStr ((normalizeArabicStr s).map lowerChar)).map lowerChar =
          trimStr ((normalizeArabicStr s).map lowerChar) := by
        have h2 := List.map_congr_left (f := lowerChar) (g := id)
          (fun a ha => hlf_y a ha)
        simpa using h2
      rw [hmap]
      exact htr_y

end WApp



